import Mathlib

/-!
Verification of the streaming sentence segmenter in
`src/vocode/streaming/agent/utils.py` (`collate_response_async`,
`find_last_punctuation`, `get_sentence_from_buffer`).

Strings are modelled as `List Char`; Python's regular expressions are
translated to executable character scans with the same semantics:
  - `re.findall(r"\$\d+.$", buffer)`: the `.` is an unescaped wildcard
    (any character except a newline), and `$` matches at the end of the
    string or just before one final trailing newline;
  - `re.findall(p1|...|pn, token)` for the escaped sentence endings is a
    substring search; the join of an empty endings list is the empty
    pattern, which matches everywhere (so `findall` is always non-empty);
  - `re.match(r"^\d+[ .]", buffer)` checks a digits-then-space-or-period
    prefix.
Python `\d` and `str.strip()` also accept non-ASCII digits/spaces; all
claims are about ASCII data, which is what we model.
-/

namespace Vocode

/-- The characters Python's `str.strip()` removes (ASCII whitespace). -/
def pySpace (c : Char) : Bool :=
  c = ' ' || c = '\t' || c = '\n' || c = '\r' || c = '\x0b' || c = '\x0c'

/-- Python `str.strip()`: drop leading and trailing whitespace. -/
def pyStrip (l : List Char) : List Char :=
  ((l.dropWhile pySpace).reverse.dropWhile pySpace).reverse

/-- Shorthand turning a string literal into the `List Char` model. -/
def chars (s : String) : List Char := s.data

/-- `SENTENCE_ENDINGS = [".", "!", "?", "\n"]` — each entry is a single
character, modelled as a `Char`. -/
def SENTENCE_ENDINGS : List Char := ['.', '!', '?', '\n']

/-- Python `buffer.rfind(c)`: the highest index at which `c` occurs, `-1`
when it does not occur. -/
def rfind (l : List Char) (c : Char) : Int :=
  match l with
  | [] => -1
  | x :: t =>
    if rfind t c ≥ 0 then rfind t c + 1 else if x = c then 0 else -1

/-- Python `max(indices)` guarded by `if not indices: return None`. -/
def pyMax : List Int → Option Int
  | [] => none
  | x :: t =>
    match pyMax t with
    | none => some x
    | some m => some (max x m)

/-- `find_last_punctuation` from the source: the max of
`buffer.rfind(ending)` over `SENTENCE_ENDINGS`, `None` only when the
endings list is empty (it never is). -/
def find_last_punctuation (buffer : List Char) : Option Int :=
  pyMax (SENTENCE_ENDINGS.map (rfind buffer))

/-- `get_sentence_from_buffer` from the source.  Note `if last_punctuation:`
is Python truthiness: the slice branch is taken when the value is neither
`None` nor `0` (so also when it is `-1`). -/
def get_sentence_from_buffer (buffer : List Char) :
    Option (List Char) × Option (List Char) :=
  match find_last_punctuation buffer with
  | none => (none, none)
  | some lp =>
    if lp = 0 then (none, none)
    else (some (buffer.take (lp + 1).toNat), some (buffer.drop (lp + 1).toNat))

/-- After `^\d+` of `re.match(r"^\d+[ .]", buffer)`: zero or more further
digits, then a space or a period. -/
def listItemAfter : List Char → Bool
  | [] => false
  | x :: t => (x = ' ' || x = '.') || (x.isDigit && listItemAfter t)

/-- `possible_list_item = bool(re.match(r"^\d+[ .]", buffer))`. -/
def possible_list_item (buffer : List Char) : Bool :=
  match buffer with
  | [] => false
  | d :: t => d.isDigit && listItemAfter t

/-- The tail the wildcard of `r"\$\d+.$"` may leave: one non-newline
character at the end of the string, optionally followed by the single
trailing newline `$` tolerates. -/
def moneyTailOk : List Char → Bool
  | [c] => c ≠ '\n'
  | [c, n] => c ≠ '\n' && n = '\n'
  | _ => false

/-- After the first digit of `\d+`: zero or more further digits, then a
`moneyTailOk` tail (the regex engine backtracks, so any split works). -/
def moneyRest : List Char → Bool
  | [] => false
  | x :: t => moneyTailOk (x :: t) || (x.isDigit && moneyRest t)

/-- What must follow the `\$` of `r"\$\d+.$"`: at least one digit, then
`moneyRest`. -/
def afterDollar : List Char → Bool
  | [] => false
  | d :: t => d.isDigit && moneyRest t

/-- `ends_with_money = bool(re.findall(r"\$\d+.$", buffer))`: some start
position carries a match of the pattern (the scan over start positions). -/
def ends_with_money : List Char → Bool
  | [] => false
  | x :: t => (x = '$' && afterDollar t) || ends_with_money t

/-- `bool(re.findall(sentence_endings_pattern, token))` where the pattern
is the alternation of the escaped endings: some ending occurs in `token`.
The join of an empty endings list is the empty pattern, which matches the
empty string at position 0, so `findall` is then always non-empty. -/
def contains_terminator (endings : List Char) (token : List Char) : Bool :=
  endings.isEmpty || endings.any (fun e => token.contains e)

/-- The `Union[str, FunctionFragment]` stream elements. -/
inductive InputUnit where
  | text : List Char → InputUnit
  | functionFragment : List Char → InputUnit
deriving DecidableEq

/-- What `collate_response_async` yields: plain strings (utterances) and
at most one final `FunctionCall`. -/
inductive OutputUnit where
  | utterance : List Char → OutputUnit
  | functionCall : List Char → OutputUnit
deriving DecidableEq

/-- The loop state of `collate_response_async`: `buffer`,
`function_buffer` and `prev_ends_with_money`. -/
structure CollateState where
  buffer : List Char
  functionBuffer : List Char
  prevEndsWithMoney : Bool
deriving DecidableEq

/-- The initial state: empty buffers, money flag false. -/
def initState : CollateState := ⟨[], [], false⟩

/-- The body of the `async for` loop for a non-empty `str` token:
the money-boundary flush, the append, the two classifications, and the
terminator test (searching the token, with `r"\n"` when the buffer looks
like a list item).  Returns the outputs yielded for this token and the
updated state. -/
def stepText (endings : List Char) (st : CollateState) (token : List Char) :
    List OutputUnit × CollateState :=
  let flush := st.prevEndsWithMoney && token.head? = some ' '
  let outs1 : List OutputUnit :=
    if flush then [.utterance (pyStrip st.buffer)] else []
  let buf1 : List Char := if flush then [] else st.buffer
  let buffer := buf1 ++ token
  let pli := possible_list_item buffer
  let ewm := ends_with_money buffer
  let hit := if pli then token.contains '\n' else contains_terminator endings token
  let outs2 : List OutputUnit :=
    if hit && !ewm then
      if (pyStrip buffer).isEmpty then [] else [.utterance (pyStrip buffer)]
    else []
  let buffer2 := if hit && !ewm then [] else buffer
  (outs1 ++ outs2, ⟨buffer2, st.functionBuffer, ewm⟩)

/-- One iteration of the loop: falsy (empty-string) tokens are skipped,
`FunctionFragment` text is appended to `function_buffer`. -/
def step (endings : List Char) (st : CollateState) (u : InputUnit) :
    List OutputUnit × CollateState :=
  match u with
  | .text s => if s.isEmpty then ([], st) else stepText endings st s
  | .functionFragment s => ([], ⟨st.buffer, st.functionBuffer ++ s, st.prevEndsWithMoney⟩)

/-- The whole `async for` loop over a finite input stream. -/
def runSteps (endings : List Char) (st : CollateState) :
    List InputUnit → List OutputUnit × CollateState
  | [] => ([], st)
  | u :: us =>
    let p := step endings st u
    let q := runSteps endings p.2 us
    (p.1 ++ q.1, q.2)

/-- The code after the loop: flush the stripped buffer if non-empty, then
the `FunctionCall` if `function_buffer` is non-empty and `get_functions`. -/
def finalFlush (get_functions : Bool) (st : CollateState) : List OutputUnit :=
  (if (pyStrip st.buffer).isEmpty then [] else [.utterance (pyStrip st.buffer)]) ++
    (if !st.functionBuffer.isEmpty && get_functions
     then [.functionCall st.functionBuffer] else [])

/-- `collate_response_async` over a finite input stream: the list of all
yielded outputs, in order. -/
def collate_response_async (endings : List Char) (get_functions : Bool)
    (inputs : List InputUnit) : List OutputUnit :=
  let p := runSteps endings initState inputs
  p.1 ++ finalFlush get_functions p.2

/-- The texts of the `Text` units, concatenated (what the spec calls the
concatenation of all input text). -/
def textConcat : List InputUnit → List Char
  | [] => []
  | .text s :: us => s ++ textConcat us
  | .functionFragment _ :: us => textConcat us

/-- The texts of the `FunctionFragment` units, concatenated. -/
def fragConcat : List InputUnit → List Char
  | [] => []
  | .text _ :: us => fragConcat us
  | .functionFragment s :: us => s ++ fragConcat us

/-- The utterance strings among a list of outputs, in order. -/
def utteranceTexts (outs : List OutputUnit) : List (List Char) :=
  outs.filterMap (fun o => match o with
    | .utterance s => some s
    | .functionCall _ => none)

/-- A string is whitespace-only. -/
def isWS (l : List Char) : Bool := l.all pySpace

/-- `WSJoin us s`: `s` is the strings `us`, in order, interleaved with
whitespace-only padding (`s = w0 ++ u1 ++ w1 ++ ... ++ un ++ wn`). -/
inductive WSJoin : List (List Char) → List Char → Prop
  | nil (w : List Char) : isWS w = true → WSJoin [] w
  | cons (w u : List Char) (us : List (List Char)) (rest : List Char) :
      isWS w = true → WSJoin us rest → WSJoin (u :: us) (w ++ u ++ rest)

/-- The text a unit contributes to the text buffer. -/
def textOf : InputUnit → List Char
  | .text s => s
  | .functionFragment _ => []

/-- The loop invariant behind the money-boundary flush: whenever the
carried flag is set, the buffer still matches the money regex (in
particular it holds a dollar sign). -/
def MoneyInv (st : CollateState) : Prop :=
  st.prevEndsWithMoney = true → ends_with_money st.buffer = true

/-! ## Helper lemmas about `rfind` and `pyMax` -/

theorem rfind_not_mem {l : List Char} {c : Char} (h : c ∉ l) : rfind l c = -1 := by
  induction l with
  | nil => rfl
  | cons x t ih =>
    have hx : ¬x = c := fun hxc => h (hxc ▸ List.mem_cons_self x t)
    have ht : c ∉ t := fun hm => h (List.mem_cons_of_mem x hm)
    simp [rfind, ih ht, hx]

theorem rfind_eq_of_decomp (pre : List Char) (c : Char) (suf : List Char)
    (h : c ∉ suf) : rfind (pre ++ c :: suf) c = (pre.length : Int) := by
  induction pre with
  | nil => simp [rfind, rfind_not_mem h]
  | cons p t ih =>
    simp only [List.cons_append, rfind, List.append_eq, ih, List.length_cons]
    have h0 : ((t.length : Int)) ≥ 0 := Int.natCast_nonneg _
    rw [if_pos h0]
    omega

theorem rfind_le_of_no_later (pre : List Char) (c : Char) (suf : List Char)
    (e : Char) (h : e ∉ suf) : rfind (pre ++ c :: suf) e ≤ (pre.length : Int) := by
  induction pre with
  | nil =>
    by_cases hc : c = e
    · subst hc
      have h0 := rfind_eq_of_decomp [] c suf h
      simp only [List.nil_append, List.length_nil] at h0 ⊢
      omega
    · have hne : e ∉ c :: suf := by
        intro hm
        rcases List.mem_cons.mp hm with h1 | h2
        · exact hc h1.symm
        · exact h h2
      rw [List.nil_append, rfind_not_mem hne]
      simp
  | cons p t ih =>
    simp only [List.cons_append, rfind, List.append_eq, List.length_cons]
    split
    · omega
    · split
      · omega
      · omega

/-- Unfolding `pyMax` one step. -/
theorem pyMax_cons (x : Int) (t : List Int) :
    pyMax (x :: t) =
      match pyMax t with
      | none => some x
      | some m => some (max x m) := rfl

/-- `pyMax` on a four-element list (the shape the source produces). -/
theorem pyMax_four (a b c d : Int) :
    pyMax [a, b, c, d] = some (max a (max b (max c d))) := rfl

/-- The four `rfind` results the source takes the max of. -/
theorem flp_eq_pyMax (b : List Char) :
    find_last_punctuation b =
      pyMax [rfind b '.', rfind b '!', rfind b '?', rfind b '\n'] := rfl

theorem flp_no_terminator {b : List Char}
    (h : ∀ d ∈ b, d ∉ SENTENCE_ENDINGS) : find_last_punctuation b = some (-1) := by
  have h1 : '.' ∉ b := fun hm => h '.' hm (by decide)
  have h2 : '!' ∉ b := fun hm => h '!' hm (by decide)
  have h3 : '?' ∉ b := fun hm => h '?' hm (by decide)
  have h4 : '\n' ∉ b := fun hm => h '\n' hm (by decide)
  rw [flp_eq_pyMax, rfind_not_mem h1, rfind_not_mem h2, rfind_not_mem h3,
    rfind_not_mem h4, pyMax_four]
  norm_num

theorem flp_decomp (pre : List Char) (c : Char) (suf : List Char)
    (hc : c ∈ SENTENCE_ENDINGS) (hs : ∀ d ∈ suf, d ∉ SENTENCE_ENDINGS) :
    find_last_punctuation (pre ++ c :: suf) = some (pre.length : Int) := by
  have b1 : rfind (pre ++ c :: suf) '.' ≤ (pre.length : Int) :=
    rfind_le_of_no_later pre c suf '.' (fun hm => hs '.' hm (by decide))
  have b2 : rfind (pre ++ c :: suf) '!' ≤ (pre.length : Int) :=
    rfind_le_of_no_later pre c suf '!' (fun hm => hs '!' hm (by decide))
  have b3 : rfind (pre ++ c :: suf) '?' ≤ (pre.length : Int) :=
    rfind_le_of_no_later pre c suf '?' (fun hm => hs '?' hm (by decide))
  have b4 : rfind (pre ++ c :: suf) '\n' ≤ (pre.length : Int) :=
    rfind_le_of_no_later pre c suf '\n' (fun hm => hs '\n' hm (by decide))
  have hexact : rfind (pre ++ c :: suf) c = (pre.length : Int) :=
    rfind_eq_of_decomp pre c suf (fun hm => hs c hm hc)
  rw [flp_eq_pyMax, pyMax_four]
  congr 1
  have hco : c = '.' ∨ c = '!' ∨ c = '?' ∨ c = '\n' := by
    simpa [SENTENCE_ENDINGS] using hc
  rcases hco with rfl | rfl | rfl | rfl
  · rw [hexact]
    exact le_antisymm (max_le (le_refl _) (max_le b2 (max_le b3 b4)))
      (le_max_left _ _)
  · rw [hexact]
    exact le_antisymm (max_le b1 (max_le (le_refl _) (max_le b3 b4)))
      (le_trans (le_max_left _ _) (le_max_right _ _))
  · rw [hexact]
    exact le_antisymm (max_le b1 (max_le b2 (max_le (le_refl _) b4)))
      (le_trans (le_trans (le_max_left _ _) (le_max_right _ _))
        (le_max_right _ _))
  · rw [hexact]
    exact le_antisymm (max_le b1 (max_le b2 (max_le b3 (le_refl _))))
      (le_trans (le_trans (le_max_right _ _) (le_max_right _ _))
        (le_max_right _ _))

/-! ## C4: `find_last_punctuation` -/

/-- C4 (corrected): `find_last_punctuation` returns the highest index at
which any terminator character occurs; when no terminator is present it
returns `-1` (the max of the four `rfind` results), not `none`. -/
theorem claim_c4_amended : ∀ b : List Char,
    ((∀ d ∈ b, d ∉ SENTENCE_ENDINGS) → find_last_punctuation b = some (-1)) ∧
    (∀ pre c suf, b = pre ++ c :: suf → c ∈ SENTENCE_ENDINGS →
      (∀ d ∈ suf, d ∉ SENTENCE_ENDINGS) →
      find_last_punctuation b = some (pre.length : Int)) :=
  fun _ => ⟨flp_no_terminator,
    fun pre c suf hb hc hs => hb ▸ flp_decomp pre c suf hc hs⟩

/-- C4 counterexample: on `"abc"`, which contains no terminator, the
function does not return `none` (it returns `some (-1)`). -/
theorem claim_c4_counterexample :
    find_last_punctuation (chars "abc") ≠ none := by decide

/-! ## C3 and C10: `get_sentence_from_buffer` -/

/-- C3 (corrected): when the rightmost terminator sits at an index `> 0`
the split is as claimed and re-concatenation gives the buffer back; but
when the rightmost terminator is at index 0 the result is `(none, none)`
(Python `0` is falsy), and when no terminator occurs the result is
`(some "", some buffer)` (Python `-1` is truthy), not `(none, none)`. -/
theorem claim_c3_amended : ∀ b : List Char,
    ((∀ d ∈ b, d ∉ SENTENCE_ENDINGS) →
      get_sentence_from_buffer b = (some [], some b)) ∧
    (∀ pre c suf, b = pre ++ c :: suf → c ∈ SENTENCE_ENDINGS →
      (∀ d ∈ suf, d ∉ SENTENCE_ENDINGS) →
      (pre = [] → get_sentence_from_buffer b = (none, none)) ∧
      (pre ≠ [] →
        get_sentence_from_buffer b = (some (pre ++ [c]), some suf) ∧
        (pre ++ [c]) ++ suf = b)) := by
  intro b
  constructor
  · intro h
    simp [get_sentence_from_buffer, flp_no_terminator h]
  · intro pre c suf hb hc hs
    subst hb
    have hflp := flp_decomp pre c suf hc hs
    constructor
    · intro hpre
      subst hpre
      simp only [List.nil_append, List.length_nil, Nat.cast_zero] at hflp
      simp [get_sentence_from_buffer, hflp]
    · intro hpre
      have hlen : pre.length ≠ 0 := fun h0 => hpre (List.eq_nil_of_length_eq_zero h0)
      have hsplit : pre ++ c :: suf = (pre ++ [c]) ++ suf := by simp
      have htake : (pre ++ c :: suf).take (pre.length + 1) = pre ++ [c] := by
        rw [hsplit]
        have : (pre ++ [c]).length = pre.length + 1 := by simp
        rw [← this, List.take_left]
      have hdrop : (pre ++ c :: suf).drop (pre.length + 1) = suf := by
        rw [hsplit]
        have : (pre ++ [c]).length = pre.length + 1 := by simp
        rw [← this, List.drop_left]
      refine ⟨?_, hsplit.symm⟩
      simp only [get_sentence_from_buffer, hflp]
      have hne : ((pre.length : Int)) ≠ 0 := by
        intro h0
        exact hlen (by omega)
      rw [if_neg hne]
      have htn : ((pre.length : Int) + 1).toNat = pre.length + 1 := by omega
      rw [htn, htake, hdrop]

/-- C3 counterexample: `"abc"` holds no terminator, yet the function
returns `(some "", some "abc")`, not the claimed `(none, none)`. -/
theorem claim_c3_counterexample :
    get_sentence_from_buffer (chars "abc") ≠ (none, none) := by decide

/-- C10 (confirmed): when a terminator occurs but the rightmost
occurrence is at index 0, `get_sentence_from_buffer` returns
`(none, none)` (Python `if last_punctuation:` treats `0` as falsy). -/
theorem claim_c10 : ∀ (c : Char) (suf : List Char), c ∈ SENTENCE_ENDINGS →
    (∀ d ∈ suf, d ∉ SENTENCE_ENDINGS) →
    get_sentence_from_buffer (c :: suf) = (none, none) := by
  intro c suf hc hs
  have h := flp_decomp [] c suf hc hs
  simp only [List.nil_append, List.length_nil, Nat.cast_zero] at h
  simp [get_sentence_from_buffer, h]

/-- C10 witness: the buffer `".abc"` (terminator only at index 0). -/
theorem claim_c10_witness :
    get_sentence_from_buffer (chars ".abc") = (none, none) :=
  claim_c10 '.' (chars "abc") (by decide) (by decide)

/-! ## C1: the money-suppression scenario -/

/-- C1 counterexample: the three chunks do not collapse into the single
utterance `"That costs $5.00 for one."`. -/
theorem claim_c1_counterexample :
    collate_response_async SENTENCE_ENDINGS false
        [.text (chars "That costs $5"), .text (chars ".00 for"),
          .text (chars " one.")] ≠
      [.utterance (chars "That costs $5.00 for one.")] := by decide

/-- C1 (corrected): the chunks `"That costs $5"`, `".00 for"`, `" one."`
yield two utterances, split at the period inside `".00 for"`: when that
chunk arrives the buffer is `"That costs $5.00 for"`, which no longer
matches the money regex (it must end right after the amount), so the
terminator found in the chunk flushes the buffer. -/
theorem claim_c1_amended :
    collate_response_async SENTENCE_ENDINGS false
        [.text (chars "That costs $5"), .text (chars ".00 for"),
          .text (chars " one.")] =
      [.utterance (chars "That costs $5.00 for"),
        .utterance (chars "one.")] := by decide

/-! ## C5: the `ends_with_money` classification -/

/-- C5 counterexample: the claim calls a buffer ending in `"$5.0"`
money-like, but `re.findall(r"\$\d+.$", "$5.0")` finds no match (the
unescaped `.` consumes one character after the digits, and `"$5.0"` has
two characters after `"$5"`). -/
theorem claim_c5_counterexample : ends_with_money (chars "$5.0") = false := by
  decide

/-- The tails accepted by `moneyTailOk`. -/
theorem moneyTailOk_iff (l : List Char) :
    moneyTailOk l = true ↔
      ∃ c suf, l = c :: suf ∧ c ≠ '\n' ∧ (suf = [] ∨ suf = ['\n']) := by
  constructor
  · intro h
    rcases l with _ | ⟨c, _ | ⟨n, _ | ⟨m, t⟩⟩⟩
    · simp [moneyTailOk] at h
    · refine ⟨c, [], rfl, ?_, Or.inl rfl⟩
      simpa [moneyTailOk] using h
    · simp only [moneyTailOk, Bool.and_eq_true, decide_eq_true_eq] at h
      exact ⟨c, [n], rfl, h.1, Or.inr (by rw [h.2])⟩
    · simp [moneyTailOk] at h
  · rintro ⟨c, suf, rfl, hc, rfl | rfl⟩ <;> simp [moneyTailOk, hc]

/-- The strings accepted by `moneyRest`: optional digits, then an
accepted tail. -/
theorem moneyRest_iff (l : List Char) :
    moneyRest l = true ↔
      ∃ ds c suf, l = ds ++ c :: suf ∧ (∀ d ∈ ds, d.isDigit = true) ∧
        c ≠ '\n' ∧ (suf = [] ∨ suf = ['\n']) := by
  induction l with
  | nil =>
    constructor
    · intro h
      simp [moneyRest] at h
    · rintro ⟨ds, c, suf, h, -⟩
      simp [eq_comm, List.append_eq_nil] at h
  | cons x t ih =>
    constructor
    · intro h
      have hor : moneyTailOk (x :: t) = true ∨ (x.isDigit && moneyRest t) = true := by
        simpa [moneyRest] using h
      rcases hor with h1 | h2
      · obtain ⟨c, suf, heq, hc, hsuf⟩ := (moneyTailOk_iff _).mp h1
        exact ⟨[], c, suf, heq, by simp, hc, hsuf⟩
      · rw [Bool.and_eq_true] at h2
        obtain ⟨hd, hr⟩ := h2
        obtain ⟨ds, c, suf, heq, hds, hc, hsuf⟩ := ih.mp hr
        refine ⟨x :: ds, c, suf, by rw [List.cons_append, heq], ?_, hc, hsuf⟩
        intro d hdm
        rcases List.mem_cons.mp hdm with rfl | hdm2
        · exact hd
        · exact hds d hdm2
    · rintro ⟨ds, c, suf, heq, hds, hc, hsuf⟩
      rcases ds with _ | ⟨d0, ds2⟩
      · simp only [List.nil_append] at heq
        have ht : moneyTailOk (x :: t) = true := by
          rw [heq]
          exact (moneyTailOk_iff _).mpr ⟨c, suf, rfl, hc, hsuf⟩
        simp [moneyRest, ht]
      · simp only [List.cons_append] at heq
        injection heq with h1 h2
        subst h1
        have hx : x.isDigit = true := hds x (List.mem_cons_self _ _)
        have hr : moneyRest t = true :=
          ih.mpr ⟨ds2, c, suf, h2,
            fun d hd => hds d (List.mem_cons_of_mem _ hd), hc, hsuf⟩
        simp [moneyRest, hx, hr]

/-- The strings accepted by `afterDollar`: one or more digits, then an
accepted tail. -/
theorem afterDollar_iff (l : List Char) :
    afterDollar l = true ↔
      ∃ ds c suf, l = ds ++ c :: suf ∧ ds ≠ [] ∧
        (∀ d ∈ ds, d.isDigit = true) ∧ c ≠ '\n' ∧ (suf = [] ∨ suf = ['\n']) := by
  constructor
  · intro h
    rcases l with _ | ⟨d, t⟩
    · simp [afterDollar] at h
    · simp only [afterDollar, Bool.and_eq_true] at h
      obtain ⟨ds, c, suf, heq, hds, hc, hsuf⟩ := (moneyRest_iff t).mp h.2
      refine ⟨d :: ds, c, suf, by rw [List.cons_append, heq],
        List.cons_ne_nil _ _, ?_, hc, hsuf⟩
      intro e he
      rcases List.mem_cons.mp he with rfl | he2
      · exact h.1
      · exact hds e he2
  · rintro ⟨ds, c, suf, heq, hne, hds, hc, hsuf⟩
    rcases ds with _ | ⟨d0, ds2⟩
    · exact absurd rfl hne
    · simp only [List.cons_append] at heq
      subst heq
      simp only [afterDollar, Bool.and_eq_true]
      exact ⟨hds d0 (List.mem_cons_self _ _),
        (moneyRest_iff _).mpr ⟨ds2, c, suf, rfl,
          fun d hd => hds d (List.mem_cons_of_mem _ hd), hc, hsuf⟩⟩

/-- C5 (corrected): the money classification is true exactly when the
buffer ends with a dollar sign, one or more digits, then exactly one
arbitrary non-newline character (optionally followed by one final
newline, which the regex anchor `$` tolerates).  The `.` of the source
pattern `r"\$\d+.$"` is an unescaped wildcard, not a literal period, so
`"$50"` matches while `"$5.0"` does not. -/
theorem claim_c5_amended : ∀ b : List Char,
    ends_with_money b = true ↔
      ∃ pre ds c suf, b = pre ++ '$' :: (ds ++ c :: suf) ∧ ds ≠ [] ∧
        (∀ d ∈ ds, d.isDigit = true) ∧ c ≠ '\n' ∧
        (suf = [] ∨ suf = ['\n']) := by
  intro b
  induction b with
  | nil =>
    constructor
    · intro h
      simp [ends_with_money] at h
    · rintro ⟨pre, ds, c, suf, heq, -⟩
      rcases pre with _ | ⟨p, t⟩ <;> simp at heq
  | cons x t ih =>
    simp only [ends_with_money, Bool.or_eq_true, Bool.and_eq_true,
      decide_eq_true_eq]
    constructor
    · rintro (⟨hx, had⟩ | hrec)
      · obtain ⟨ds, c, suf, heq, hne, hds, hc, hsuf⟩ := (afterDollar_iff t).mp had
        exact ⟨[], ds, c, suf, by rw [List.nil_append, hx, heq], hne, hds, hc,
          hsuf⟩
      · obtain ⟨pre, ds, c, suf, heq, hne, hds, hc, hsuf⟩ := ih.mp hrec
        exact ⟨x :: pre, ds, c, suf, by rw [List.cons_append, heq], hne, hds,
          hc, hsuf⟩
    · rintro ⟨pre, ds, c, suf, heq, hne, hds, hc, hsuf⟩
      rcases pre with _ | ⟨p0, pre2⟩
      · simp only [List.nil_append] at heq
        injection heq with h1 h2
        exact Or.inl ⟨h1, (afterDollar_iff t).mpr ⟨ds, c, suf, h2, hne, hds,
          hc, hsuf⟩⟩
      · simp only [List.cons_append] at heq
        injection heq with h1 h2
        exact Or.inr (ih.mpr ⟨pre2, ds, c, suf, h2, hne, hds, hc, hsuf⟩)

/-! ## C6: empty terminator set -/

/-- C6 counterexample: with an empty terminator set the tokens `"a"`,
`"b"` are emitted as two utterances immediately, not buffered to a single
end-of-stream utterance `"ab"`. -/
theorem claim_c6_counterexample :
    collate_response_async [] false [.text (chars "a"), .text (chars "b")] ≠
      [.utterance (chars "ab")] := by decide

/-- C6 (corrected): an empty terminator set raises no error, but it does
not disable splitting — `"|".join([])` is the empty pattern, which
matches in every token, so the step-3d boundary test fires for every
nonempty text unit (the list-item and money guards aside) and the buffer
is flushed after every token rather than only at end of stream. -/
theorem claim_c6_amended :
    (∀ token : List Char, contains_terminator [] token = true) ∧
      collate_response_async [] false [.text (chars "a"), .text (chars "b")] =
        [.utterance (chars "a"), .utterance (chars "b")] :=
  ⟨fun _ => rfl, by decide⟩

/-! ## The loop body, zeta-expanded -/

/-- `stepText` with its `let`-bindings named: the abbreviations `flush`,
`buffer` and `hit` are exactly the source's intermediate values. -/
theorem stepText_cases (endings : List Char) (st : CollateState)
    (token : List Char) (flush hit : Bool) (buffer : List Char)
    (hf : flush = (st.prevEndsWithMoney && token.head? = some ' '))
    (hb : buffer = (if flush then [] else st.buffer) ++ token)
    (hh : hit = (if possible_list_item buffer then token.contains '\n'
                 else contains_terminator endings token)) :
    stepText endings st token =
      ((if flush then [OutputUnit.utterance (pyStrip st.buffer)] else []) ++
        (if hit && !ends_with_money buffer then
          (if (pyStrip buffer).isEmpty then []
           else [OutputUnit.utterance (pyStrip buffer)])
         else []),
       ⟨if hit && !ends_with_money buffer then [] else buffer,
        st.functionBuffer, ends_with_money buffer⟩) := by
  subst hf
  subst hb
  subst hh
  rfl

/-! ## C7: outputs per input unit -/

/-- C7 counterexample: after the unit `"$1."` (which sets the money
flag), the single `Text` unit `" ok."` yields two utterances in one
step — the money-boundary flush and then the terminator emission. -/
theorem claim_c7_counterexample :
    (step SENTENCE_ENDINGS
        ((step SENTENCE_ENDINGS initState (InputUnit.text (chars "$1."))).2)
        (InputUnit.text (chars " ok."))).1 =
      [OutputUnit.utterance (chars "$1."), OutputUnit.utterance (chars "ok.")] := by
  decide

/-- C7 (corrected): a single input unit can emit up to two outputs
inline (the money-boundary flush followed by the terminator emission in
the same `Text` unit), and the end-of-stream flush emits up to two
outputs (final utterance, then function call). -/
theorem claim_c7_amended :
    (∀ (endings : List Char) (st : CollateState) (u : InputUnit),
        (step endings st u).1.length ≤ 2) ∧
      ∀ (gf : Bool) (st : CollateState), (finalFlush gf st).length ≤ 2 := by
  constructor
  · intro endings st u
    cases u with
    | text s =>
      by_cases hs : s.isEmpty
      · simp [step, hs]
      · have hst : step endings st (.text s) = stepText endings st s := by
          simp [step, hs]
        rw [hst, stepText_cases endings st s _ _ _ rfl rfl rfl,
          List.length_append]
        split_ifs <;> simp
    | functionFragment s => simp [step]
  · intro gf st
    unfold finalFlush
    rw [List.length_append]
    split_ifs <;> simp

/-! ## Whitespace and `pyStrip` lemmas -/

theorem isWS_iff (l : List Char) : isWS l = true ↔ ∀ c ∈ l, pySpace c = true := by
  simp [isWS, List.all_eq_true]

theorem isWS_append (a b : List Char) : isWS (a ++ b) = (isWS a && isWS b) :=
  List.all_append

/-- Right-stripping only removes a whitespace suffix. -/
theorem rstrip_split (m : List Char) :
    ∃ w, isWS w = true ∧ m = (m.reverse.dropWhile pySpace).reverse ++ w := by
  refine ⟨(m.reverse.takeWhile pySpace).reverse, ?_, ?_⟩
  · rw [isWS_iff]
    intro c hc
    exact List.mem_takeWhile_imp (List.mem_reverse.mp hc)
  · have h1 := List.takeWhile_append_dropWhile (p := pySpace) (l := m.reverse)
    have h2 := congrArg List.reverse h1
    rw [List.reverse_append, List.reverse_reverse] at h2
    exact h2.symm

/-- A list is a whitespace prefix, its strip, and a whitespace suffix. -/
theorem pyStrip_split (l : List Char) :
    ∃ w1 w2, isWS w1 = true ∧ isWS w2 = true ∧
      l = w1 ++ (pyStrip l ++ w2) := by
  obtain ⟨w2, hw2, hm⟩ := rstrip_split (l.dropWhile pySpace)
  refine ⟨l.takeWhile pySpace, w2, ?_, hw2, ?_⟩
  · rw [isWS_iff]
    intro c hc
    exact List.mem_takeWhile_imp hc
  · conv_lhs => rw [← List.takeWhile_append_dropWhile (p := pySpace) (l := l)]
    rw [hm]
    rfl

theorem isWS_of_pyStrip_nil {l : List Char} (h : pyStrip l = []) :
    isWS l = true := by
  obtain ⟨w1, w2, hw1, hw2, hl⟩ := pyStrip_split l
  rw [h, List.nil_append] at hl
  rw [hl, isWS_append, hw1, hw2]
  rfl

theorem pyStrip_ne_nil_of_mem {l : List Char} {c : Char} (hm : c ∈ l)
    (hc : pySpace c = false) : pyStrip l ≠ [] := by
  intro h
  have h2 := (isWS_iff l).mp (isWS_of_pyStrip_nil h) c hm
  rw [hc] at h2
  exact Bool.noConfusion h2

theorem dropWhile_head_not {p : Char → Bool} :
    ∀ {l : List Char} {c : Char} {t : List Char},
      l.dropWhile p = c :: t → p c = false := by
  intro l
  induction l with
  | nil => intro c t h; simp at h
  | cons x xs ih =>
    intro c t h
    rw [List.dropWhile_cons] at h
    cases hx : p x
    · rw [hx] at h
      simp at h
      rw [← h.1]
      exact hx
    · rw [hx] at h
      simp at h
      exact ih h

/-- The first character a strip keeps is not whitespace. -/
theorem pyStrip_head_not_space {l : List Char} {c : Char} {t : List Char}
    (h : pyStrip l = c :: t) : pySpace c = false := by
  obtain ⟨w, hw, hm⟩ := rstrip_split (l.dropWhile pySpace)
  have hm2 : l.dropWhile pySpace = pyStrip l ++ w := hm
  rw [h, List.cons_append] at hm2
  exact dropWhile_head_not hm2

/-- Stripping an already produced non-empty strip keeps it non-empty. -/
theorem pyStrip_pyStrip_ne_nil {l : List Char} (h : pyStrip l ≠ []) :
    pyStrip (pyStrip l) ≠ [] := by
  cases hl : pyStrip l with
  | nil => exact absurd hl h
  | cons c t =>
    exact pyStrip_ne_nil_of_mem (List.mem_cons_self c t)
      (pyStrip_head_not_space hl)

/-- A buffer the money regex accepts contains a dollar sign. -/
theorem money_has_dollar {l : List Char} (h : ends_with_money l = true) :
    '$' ∈ l := by
  induction l with
  | nil => simp [ends_with_money] at h
  | cons x t ih =>
    simp only [ends_with_money, Bool.or_eq_true, Bool.and_eq_true,
      decide_eq_true_eq] at h
    rcases h with ⟨hx, -⟩ | h2
    · exact List.mem_cons.mpr (Or.inl hx.symm)
    · exact List.mem_cons_of_mem x (ih h2)

/-! ## C8: emitted utterances are non-empty after trimming -/

/-- `(stepText ...).1` with the intermediate values named. -/
theorem stepText_fst (endings : List Char) (st : CollateState)
    (token : List Char) (flush hit : Bool) (buffer : List Char)
    (hf : flush = (st.prevEndsWithMoney && token.head? = some ' '))
    (hb : buffer = (if flush then [] else st.buffer) ++ token)
    (hh : hit = (if possible_list_item buffer then token.contains '\n'
                 else contains_terminator endings token)) :
    (stepText endings st token).1 =
      (if flush then [OutputUnit.utterance (pyStrip st.buffer)] else []) ++
        (if hit && !ends_with_money buffer then
          (if (pyStrip buffer).isEmpty then []
           else [OutputUnit.utterance (pyStrip buffer)])
         else []) := by
  subst hf
  subst hb
  subst hh
  rfl

/-- `(stepText ...).2` with the intermediate values named. -/
theorem stepText_snd (endings : List Char) (st : CollateState)
    (token : List Char) (flush hit : Bool) (buffer : List Char)
    (hf : flush = (st.prevEndsWithMoney && token.head? = some ' '))
    (hb : buffer = (if flush then [] else st.buffer) ++ token)
    (hh : hit = (if possible_list_item buffer then token.contains '\n'
                 else contains_terminator endings token)) :
    (stepText endings st token).2 =
      ⟨if hit && !ends_with_money buffer then [] else buffer,
       st.functionBuffer, ends_with_money buffer⟩ := by
  subst hf
  subst hb
  subst hh
  rfl

theorem moneyInv_mk (buf fb : List Char) (hit : Bool) :
    MoneyInv ⟨if hit && !ends_with_money buf then [] else buf, fb,
      ends_with_money buf⟩ := by
  intro h
  have h2 : ends_with_money buf = true := h
  show ends_with_money (if hit && !ends_with_money buf then [] else buf) = true
  rw [h2]
  simp [h2]

theorem stepText_moneyInv (endings : List Char) (st : CollateState)
    (token : List Char) : MoneyInv (stepText endings st token).2 := by
  rw [stepText_snd endings st token _ _ _ rfl rfl rfl]
  exact moneyInv_mk _ _ _

theorem step_moneyInv (endings : List Char) (st : CollateState)
    (u : InputUnit) (h : MoneyInv st) : MoneyInv (step endings st u).2 := by
  cases u with
  | text s =>
    by_cases hs : s.isEmpty
    · simp only [step, if_pos hs]
      exact h
    · simp only [step, if_neg hs]
      exact stepText_moneyInv endings st s
  | functionFragment s =>
    intro hp
    exact h hp

/-- Whatever sits in the guarded emission
`if c then (if strip is empty then [] else [trimmed utterance]) else []`
is non-empty after (and stable under) a further strip. -/
theorem utter_mem_emit {s X : List Char} {c : Prop} [Decidable c]
    (h : OutputUnit.utterance s ∈
      (if c then
        (if (pyStrip X).isEmpty then []
         else [OutputUnit.utterance (pyStrip X)])
       else ([] : List OutputUnit))) : pyStrip s ≠ [] := by
  split at h
  · split at h
    · simp at h
    next hne =>
      rw [List.mem_singleton] at h
      injection h with hs2
      rw [hs2]
      apply pyStrip_pyStrip_ne_nil
      intro hnil
      exact hne (by rw [hnil]; rfl)
  · simp at h

theorem stepText_utter_strip (endings : List Char) (st : CollateState)
    (token : List Char) (hinv : MoneyInv st) :
    ∀ s, OutputUnit.utterance s ∈ (stepText endings st token).1 →
      pyStrip s ≠ [] := by
  intro s hs
  rw [stepText_fst endings st token _ _ _ rfl rfl rfl,
    List.mem_append] at hs
  rcases hs with h1 | h2
  · split at h1
    next hfl =>
      rw [List.mem_singleton] at h1
      injection h1 with h1s
      rw [h1s]
      apply pyStrip_pyStrip_ne_nil
      rw [Bool.and_eq_true] at hfl
      have hmoney : ends_with_money st.buffer = true := hinv hfl.1
      exact pyStrip_ne_nil_of_mem (money_has_dollar hmoney) (by decide)
    next => simp at h1
  · exact utter_mem_emit h2

theorem step_utter_strip (endings : List Char) (st : CollateState)
    (u : InputUnit) (hinv : MoneyInv st) :
    ∀ s, OutputUnit.utterance s ∈ (step endings st u).1 →
      pyStrip s ≠ [] := by
  cases u with
  | text s0 =>
    by_cases hs : s0.isEmpty
    · intro s hsm
      simp [step, hs] at hsm
    · intro s hsm
      simp only [step, if_neg hs] at hsm
      exact stepText_utter_strip endings st s0 hinv s hsm
  | functionFragment s0 =>
    intro s hsm
    simp [step] at hsm

theorem runSteps_nil_fst (endings : List Char) (st : CollateState) :
    (runSteps endings st []).1 = [] := rfl

theorem runSteps_nil_snd (endings : List Char) (st : CollateState) :
    (runSteps endings st []).2 = st := rfl

theorem runSteps_cons_fst (endings : List Char) (st : CollateState)
    (u : InputUnit) (us : List InputUnit) :
    (runSteps endings st (u :: us)).1 =
      (step endings st u).1 ++
        (runSteps endings (step endings st u).2 us).1 := rfl

theorem runSteps_cons_snd (endings : List Char) (st : CollateState)
    (u : InputUnit) (us : List InputUnit) :
    (runSteps endings st (u :: us)).2 =
      (runSteps endings (step endings st u).2 us).2 := rfl

theorem runSteps_utter_strip (endings : List Char) :
    ∀ (inputs : List InputUnit) (st : CollateState), MoneyInv st →
      ∀ s, OutputUnit.utterance s ∈ (runSteps endings st inputs).1 →
        pyStrip s ≠ [] := by
  intro inputs
  induction inputs with
  | nil =>
    intro st hinv s hs
    rw [runSteps_nil_fst] at hs
    simp at hs
  | cons u us ih =>
    intro st hinv s hs
    rw [runSteps_cons_fst, List.mem_append] at hs
    rcases hs with h1 | h2
    · exact step_utter_strip endings st u hinv s h1
    · exact ih (step endings st u).2 (step_moneyInv endings st u hinv) s h2

theorem finalFlush_utter_strip (gf : Bool) (st : CollateState) :
    ∀ s, OutputUnit.utterance s ∈ finalFlush gf st → pyStrip s ≠ [] := by
  intro s hs
  unfold finalFlush at hs
  rw [List.mem_append] at hs
  rcases hs with h1 | h2
  · split at h1
    next => simp at h1
    next hne =>
      rw [List.mem_singleton] at h1
      injection h1 with h1s
      rw [h1s]
      apply pyStrip_pyStrip_ne_nil
      intro hnil
      exact hne (by rw [hnil]; rfl)
  · split at h2
    next =>
      rw [List.mem_singleton] at h2
      exact OutputUnit.noConfusion h2
    next => simp at h2

/-- C8 (confirmed): every string the segmenter yields as an utterance is
non-empty after whitespace trimming.  The money-boundary flush has no
explicit emptiness guard in the source, but it only fires when the
previous text unit set the money flag, in which case the buffer still
matches the money regex and so holds a dollar sign. -/
theorem claim_c8 : ∀ (endings : List Char) (gf : Bool)
    (inputs : List InputUnit) (s : List Char),
    OutputUnit.utterance s ∈ collate_response_async endings gf inputs →
    pyStrip s ≠ [] := by
  intro endings gf inputs s hs
  have hc : collate_response_async endings gf inputs =
      (runSteps endings initState inputs).1 ++
        finalFlush gf (runSteps endings initState inputs).2 := rfl
  rw [hc, List.mem_append] at hs
  have hinv : MoneyInv initState := fun h => Bool.noConfusion h
  rcases hs with h1 | h2
  · exact runSteps_utter_strip endings inputs initState hinv s h1
  · exact finalFlush_utter_strip gf _ s h2

/-- C8 witness: the single-chunk stream `"Hi."` emits the utterance
`"Hi."`, which is non-empty after trimming. -/
theorem claim_c8_witness : pyStrip (chars "Hi.") ≠ [] :=
  claim_c8 SENTENCE_ENDINGS false [InputUnit.text (chars "Hi.")]
    (chars "Hi.") (by decide)

/-! ## C9: the aggregated function call -/

theorem utter_mem_emit_shape {o : OutputUnit} {X : List Char} {c : Prop}
    [Decidable c]
    (h : o ∈ (if c then
        (if (pyStrip X).isEmpty then []
         else [OutputUnit.utterance (pyStrip X)])
       else ([] : List OutputUnit))) :
    ∃ s, o = OutputUnit.utterance s := by
  split at h
  · split at h
    · simp at h
    · rw [List.mem_singleton] at h
      exact ⟨_, h⟩
  · simp at h

theorem stepText_utterances_only (endings : List Char) (st : CollateState)
    (token : List Char) :
    ∀ o ∈ (stepText endings st token).1, ∃ s, o = OutputUnit.utterance s := by
  intro o ho
  rw [stepText_fst endings st token _ _ _ rfl rfl rfl,
    List.mem_append] at ho
  rcases ho with h1 | h2
  · split at h1
    · rw [List.mem_singleton] at h1
      exact ⟨_, h1⟩
    · simp at h1
  · exact utter_mem_emit_shape h2

theorem step_utterances_only (endings : List Char) (st : CollateState)
    (u : InputUnit) :
    ∀ o ∈ (step endings st u).1, ∃ s, o = OutputUnit.utterance s := by
  cases u with
  | text s0 =>
    by_cases hs : s0.isEmpty
    · intro o ho
      simp [step, hs] at ho
    · intro o ho
      simp only [step, if_neg hs] at ho
      exact stepText_utterances_only endings st s0 o ho
  | functionFragment s0 =>
    intro o ho
    simp [step] at ho

theorem runSteps_utterances_only (endings : List Char) :
    ∀ (inputs : List InputUnit) (st : CollateState) (o : OutputUnit),
      o ∈ (runSteps endings st inputs).1 →
      ∃ s, o = OutputUnit.utterance s := by
  intro inputs
  induction inputs with
  | nil =>
    intro st o ho
    rw [runSteps_nil_fst] at ho
    simp at ho
  | cons u us ih =>
    intro st o ho
    rw [runSteps_cons_fst, List.mem_append] at ho
    rcases ho with h1 | h2
    · exact step_utterances_only endings st u o h1
    · exact ih (step endings st u).2 o h2

theorem stepText_functionBuffer (endings : List Char) (st : CollateState)
    (token : List Char) :
    (stepText endings st token).2.functionBuffer = st.functionBuffer := by
  rw [stepText_snd endings st token _ _ _ rfl rfl rfl]

theorem step_functionBuffer (endings : List Char) (st : CollateState)
    (u : InputUnit) :
    (step endings st u).2.functionBuffer =
      st.functionBuffer ++ fragConcat [u] := by
  cases u with
  | text s =>
    by_cases hs : s.isEmpty
    · simp [step, hs, fragConcat]
    · simp only [step, if_neg hs]
      rw [stepText_functionBuffer]
      simp [fragConcat]
  | functionFragment s =>
    simp [step, fragConcat]

theorem runSteps_functionBuffer (endings : List Char) :
    ∀ (inputs : List InputUnit) (st : CollateState),
      (runSteps endings st inputs).2.functionBuffer =
        st.functionBuffer ++ fragConcat inputs := by
  intro inputs
  induction inputs with
  | nil =>
    intro st
    rw [runSteps_nil_snd]
    simp [fragConcat]
  | cons u us ih =>
    intro st
    rw [runSteps_cons_snd, ih, step_functionBuffer]
    cases u <;> simp [fragConcat]

/-- C9 (confirmed): the whole output stream is a list of utterances
followed by at most one `FunctionCall`, which appears exactly when
`get_functions` is set and the accumulated fragment text is non-empty,
and whose text is the concatenation of all fragment texts in arrival
order. -/
theorem claim_c9 : ∀ (endings : List Char) (gf : Bool)
    (inputs : List InputUnit), ∃ us : List OutputUnit,
    (∀ o ∈ us, ∃ s, o = OutputUnit.utterance s) ∧
    collate_response_async endings gf inputs =
      us ++ (if !(fragConcat inputs).isEmpty && gf
             then [OutputUnit.functionCall (fragConcat inputs)] else []) := by
  intro endings gf inputs
  refine ⟨(runSteps endings initState inputs).1 ++
    (if (pyStrip (runSteps endings initState inputs).2.buffer).isEmpty then []
     else [OutputUnit.utterance
       (pyStrip (runSteps endings initState inputs).2.buffer)]), ?_, ?_⟩
  · intro o ho
    rw [List.mem_append] at ho
    rcases ho with h1 | h2
    · exact runSteps_utterances_only endings inputs initState o h1
    · split at h2
      · simp at h2
      · rw [List.mem_singleton] at h2
        exact ⟨_, h2⟩
  · have hc : collate_response_async endings gf inputs =
        (runSteps endings initState inputs).1 ++
          finalFlush gf (runSteps endings initState inputs).2 := rfl
    rw [hc]
    unfold finalFlush
    have hfb : (runSteps endings initState inputs).2.functionBuffer =
        fragConcat inputs := by
      rw [runSteps_functionBuffer]
      simp [initState]
    rw [hfb, List.append_assoc]

/-! ## C2: no character loss beyond trimmed whitespace -/

theorem utteranceTexts_append (a b : List OutputUnit) :
    utteranceTexts (a ++ b) = utteranceTexts a ++ utteranceTexts b :=
  List.filterMap_append _ _ _

theorem wsjoin_ws_append {us : List (List Char)} {s w : List Char}
    (h : WSJoin us s) (hw : isWS w = true) : WSJoin us (w ++ s) := by
  cases h with
  | nil w2 hw2 =>
    refine WSJoin.nil _ ?_
    rw [isWS_append, hw, hw2]
    rfl
  | cons w2 u us2 rest hw2 hrest =>
    have heq : w ++ (w2 ++ u ++ rest) = (w ++ w2) ++ u ++ rest := by
      simp [List.append_assoc]
    rw [heq]
    refine WSJoin.cons _ _ _ _ ?_ hrest
    rw [isWS_append, hw, hw2]
    rfl

theorem wsjoin_append_ws {us : List (List Char)} {s w : List Char}
    (h : WSJoin us s) (hw : isWS w = true) : WSJoin us (s ++ w) := by
  induction h with
  | nil w2 hw2 =>
    refine WSJoin.nil _ ?_
    rw [isWS_append, hw2, hw]
    rfl
  | cons w2 u us2 rest hw2 hrest ih =>
    have heq : (w2 ++ u ++ rest) ++ w = w2 ++ u ++ (rest ++ w) := by
      simp [List.append_assoc]
    rw [heq]
    exact WSJoin.cons _ _ _ _ hw2 ih

theorem wsjoin_concat {us1 : List (List Char)} {s1 : List Char}
    {us2 : List (List Char)} {s2 : List Char}
    (h1 : WSJoin us1 s1) (h2 : WSJoin us2 s2) :
    WSJoin (us1 ++ us2) (s1 ++ s2) := by
  induction h1 with
  | nil w hw =>
    rw [List.nil_append]
    exact wsjoin_ws_append h2 hw
  | cons w u us rest hw hrest ih =>
    have heq : (w ++ u ++ rest) ++ s2 = w ++ u ++ (rest ++ s2) := by
      simp [List.append_assoc]
    rw [List.cons_append, heq]
    exact WSJoin.cons _ _ _ _ hw ih

/-- Every string interleaves its own strip with whitespace. -/
theorem wsjoin_strip (l : List Char) : WSJoin [pyStrip l] l := by
  obtain ⟨w1, w2, hw1, hw2, hl⟩ := pyStrip_split l
  nth_rewrite 2 [hl]
  have heq : w1 ++ (pyStrip l ++ w2) = w1 ++ pyStrip l ++ w2 := by
    simp [List.append_assoc]
  rw [heq]
  exact WSJoin.cons _ _ _ _ hw1 (WSJoin.nil _ hw2)

theorem textConcat_cons (u : InputUnit) (us : List InputUnit) :
    textConcat (u :: us) = textOf u ++ textConcat us := by
  cases u <;> simp [textConcat, textOf]

/-- One text token: what was in the buffer plus the token splits into an
emitted (whitespace-padded) part and the new buffer. -/
theorem stepText_reconstruct (endings : List Char) (st : CollateState)
    (token : List Char) :
    ∃ e, st.buffer ++ token = e ++ (stepText endings st token).2.buffer ∧
      WSJoin (utteranceTexts (stepText endings st token).1) e := by
  rw [stepText_fst endings st token _ _ _ rfl rfl rfl,
    stepText_snd endings st token _ _ _ rfl rfl rfl]
  by_cases hfl : (st.prevEndsWithMoney && token.head? = some ' ') = true
  · simp only [if_pos hfl, List.nil_append]
    by_cases hhit : ((if possible_list_item token then token.contains '\n'
        else contains_terminator endings token) &&
          !ends_with_money token) = true
    · simp only [if_pos hhit]
      by_cases hemp : (pyStrip token).isEmpty = true
      · simp only [if_pos hemp]
        refine ⟨st.buffer ++ token, by simp, ?_⟩
        exact wsjoin_append_ws (wsjoin_strip st.buffer)
          (isWS_of_pyStrip_nil (List.isEmpty_iff.mp hemp))
      · simp only [if_neg hemp]
        refine ⟨st.buffer ++ token, by simp, ?_⟩
        exact wsjoin_concat (wsjoin_strip st.buffer) (wsjoin_strip token)
    · simp only [if_neg hhit]
      exact ⟨st.buffer, rfl, wsjoin_strip st.buffer⟩
  · simp only [if_neg hfl]
    by_cases hhit : ((if possible_list_item (st.buffer ++ token)
        then token.contains '\n' else contains_terminator endings token) &&
          !ends_with_money (st.buffer ++ token)) = true
    · simp only [if_pos hhit]
      by_cases hemp : (pyStrip (st.buffer ++ token)).isEmpty = true
      · simp only [if_pos hemp]
        refine ⟨st.buffer ++ token, by simp, ?_⟩
        exact WSJoin.nil _ (isWS_of_pyStrip_nil (List.isEmpty_iff.mp hemp))
      · simp only [if_neg hemp]
        refine ⟨st.buffer ++ token, by simp, ?_⟩
        exact wsjoin_strip (st.buffer ++ token)
    · simp only [if_neg hhit]
      exact ⟨[], rfl, WSJoin.nil [] rfl⟩

theorem step_reconstruct (endings : List Char) (st : CollateState)
    (u : InputUnit) :
    ∃ e, st.buffer ++ textOf u = e ++ (step endings st u).2.buffer ∧
      WSJoin (utteranceTexts (step endings st u).1) e := by
  cases u with
  | text s =>
    by_cases hs : s.isEmpty
    · have hstep : step endings st (.text s) = ([], st) := by
        simp [step, hs]
      rw [hstep]
      refine ⟨[], ?_, WSJoin.nil [] rfl⟩
      have hs2 : s = [] := List.isEmpty_iff.mp hs
      simp [textOf, hs2]
    · simp only [step, if_neg hs]
      exact stepText_reconstruct endings st s
  | functionFragment s =>
    refine ⟨[], ?_, WSJoin.nil [] rfl⟩
    simp [step, textOf]

theorem runSteps_reconstruct (endings : List Char) :
    ∀ (inputs : List InputUnit) (st : CollateState),
      ∃ e, st.buffer ++ textConcat inputs =
          e ++ (runSteps endings st inputs).2.buffer ∧
        WSJoin (utteranceTexts (runSteps endings st inputs).1) e := by
  intro inputs
  induction inputs with
  | nil =>
    intro st
    refine ⟨[], ?_, WSJoin.nil [] rfl⟩
    rw [runSteps_nil_snd]
    simp [textConcat]
  | cons u us ih =>
    intro st
    obtain ⟨e1, he1, hw1⟩ := step_reconstruct endings st u
    obtain ⟨e2, he2, hw2⟩ := ih (step endings st u).2
    refine ⟨e1 ++ e2, ?_, ?_⟩
    · rw [textConcat_cons, runSteps_cons_snd]
      calc st.buffer ++ (textOf u ++ textConcat us)
          = (st.buffer ++ textOf u) ++ textConcat us :=
            (List.append_assoc _ _ _).symm
        _ = (e1 ++ (step endings st u).2.buffer) ++ textConcat us := by
            rw [he1]
        _ = e1 ++ ((step endings st u).2.buffer ++ textConcat us) :=
            List.append_assoc _ _ _
        _ = e1 ++ (e2 ++ (runSteps endings (step endings st u).2 us).2.buffer) := by
            rw [he2]
        _ = (e1 ++ e2) ++ (runSteps endings (step endings st u).2 us).2.buffer :=
            (List.append_assoc _ _ _).symm
    · rw [runSteps_cons_fst, utteranceTexts_append]
      exact wsjoin_concat hw1 hw2

theorem utteranceTexts_finalFlush (gf : Bool) (st : CollateState) :
    utteranceTexts (finalFlush gf st) =
      if (pyStrip st.buffer).isEmpty then [] else [pyStrip st.buffer] := by
  unfold finalFlush
  rw [utteranceTexts_append]
  by_cases h1 : (pyStrip st.buffer).isEmpty = true
  · rw [if_pos h1, if_pos h1]
    by_cases h2 : (!st.functionBuffer.isEmpty && gf) = true
    · rw [if_pos h2]
      rfl
    · rw [if_neg h2]
      rfl
  · rw [if_neg h1, if_neg h1]
    by_cases h2 : (!st.functionBuffer.isEmpty && gf) = true
    · rw [if_pos h2]
      rfl
    · rw [if_neg h2]
      rfl

/-- C2 (confirmed): the concatenation of all `Text` unit texts equals the
emitted utterance strings, in order, interleaved with whitespace-only
padding — every character lands in exactly one utterance (or the final
flush) in input order, and only whitespace trimmed at boundaries is
dropped. -/
theorem claim_c2 : ∀ (endings : List Char) (gf : Bool)
    (inputs : List InputUnit),
    WSJoin (utteranceTexts (collate_response_async endings gf inputs))
      (textConcat inputs) := by
  intro endings gf inputs
  obtain ⟨e, he, hw⟩ := runSteps_reconstruct endings inputs initState
  have he2 : textConcat inputs =
      e ++ (runSteps endings initState inputs).2.buffer := by
    simpa [initState] using he
  rw [he2]
  have hc : collate_response_async endings gf inputs =
      (runSteps endings initState inputs).1 ++
        finalFlush gf (runSteps endings initState inputs).2 := rfl
  rw [hc, utteranceTexts_append, utteranceTexts_finalFlush]
  by_cases hemp : (pyStrip (runSteps endings initState inputs).2.buffer).isEmpty = true
  · rw [if_pos hemp]
    exact wsjoin_concat hw
      (WSJoin.nil _ (isWS_of_pyStrip_nil (List.isEmpty_iff.mp hemp)))
  · rw [if_neg hemp]
    exact wsjoin_concat hw (wsjoin_strip _)

end Vocode
